import Mathlib

/-!
Verification of the core of `nostril/nonsense_detector.py`: n-gram extraction,
weight-table construction (`ngram_values`), the TF-IDF scorer
(`tfidf_score_function`) and the detector (`generate_nonsense_detector`).

Python strings are modelled as `List Char`, Python floats as `ℝ`
(exact real arithmetic), Python dictionaries as a key list together with a
value function, and fallible operations as `Option` / explicit result types.
-/

set_option maxRecDepth 8000

namespace Nostril

/-- A Python string, modelled as its list of characters. -/
abbrev Str := List Char

/-- Embeds `ngrams(string, n)`:
`[string[i : i + n] for i in range(len(string) - n + 1)]`.
`List.range (s.length + 1 - n)` has the same length as Python's
`range(len(string) - n + 1)` for every `n` (both are empty once
`n > len(string)`), and each slice `string[i : i + n]` is
`(s.drop i).take n`. -/
def ngrams (s : Str) (n : ℕ) : List Str :=
  (List.range (s.length + 1 - n)).map (fun i => (s.drop i).take n)

/-- `string.ascii_lowercase`. -/
def all_letters : Str :=
  ['a','b','c','d','e','f','g','h','i','j','k','l','m',
   'n','o','p','q','r','s','t','u','v','w','x','y','z']

/-- Embeds `all_possible_ngrams(n)`: `[]` for `n == 0`, the single letters for
`n == 1`, and otherwise every letter prepended to every (n-1)-gram. -/
def all_possible_ngrams : ℕ → List Str
  | 0 => []
  | 1 => all_letters.map (fun letter => [letter])
  | n + 2 =>
      all_letters.flatMap (fun letter =>
        (all_possible_ngrams (n + 1)).map (fun ngram => letter :: ngram))

/-- The named tuple `NGramData(string_frequency, total_frequency, idf)`. -/
structure NGramData where
  string_frequency : ℕ
  total_frequency : ℕ
  idf : ℝ

/-- `string.lower()` (ASCII case folding, the relevant fragment of Python's
`str.lower` for this code base). -/
def lower (s : Str) : Str := s.map Char.toLower

/-- The value `counts[g]` accumulated by `ngram_values`: total number of
occurrences of the n-gram `g` across all (lower-cased) corpus strings. -/
def counts (corpus : List Str) (n : ℕ) (g : Str) : ℕ :=
  ((corpus.map lower).map (fun s => (ngrams s n).count g)).sum

/-- The value `len(occurrences[g])` accumulated by `ngram_values`: the number
of distinct (lower-cased) corpus strings that contain the n-gram `g`
(`occurrences[g]` is a Python `set` of strings). -/
def stringFreq (corpus : List Str) (n : ℕ) (g : Str) : ℕ :=
  (((corpus.map lower).dedup).filter (fun s => g ∈ ngrams s n)).length

/-- The key list of the dictionaries `counts` / `occurrences` built by
`ngram_values`: every n-gram occurring in some lower-cased corpus string, in
first-occurrence order (Python dict keys are unique). -/
def corpus_ngrams (corpus : List Str) (n : ℕ) : List Str :=
  (((corpus.map lower).map (fun s => ngrams s n)).flatten).dedup

/-- Embeds `ngram_idf_value(total_num_strings, string_frequency,
total_frequency, max_frequency) = log(total_num_strings/(1 + string_frequency), 2)`.
The last two arguments are accepted and ignored, exactly as in the source. -/
noncomputable def ngram_idf_value (total_num_strings string_frequency
    total_frequency max_frequency : ℕ) : ℝ :=
  Real.logb 2 ((total_num_strings : ℝ) / (1 + (string_frequency : ℝ)))

/-- A Python dict from n-grams to `NGramData`: its key list (unique keys, in
insertion order) and its value function.  The value function is only
meaningful on the keys; a lookup `d[g]` for `g` outside `keys` is a Python
`KeyError`, which consumers model by guarding on `keys`. -/
structure Table where
  keys : List Str
  val : Str → NGramData

/-- Python `max(iterable)` over a list of reals (the empty case raises in
Python; every call site below is guarded so the `[]` branch is never used). -/
noncomputable def listMax : List ℝ → ℝ
  | [] => 0
  | x :: xs => xs.foldl max x

/-- Python `max(iterable)` over a list of naturals (same convention). -/
def natListMax : List ℕ → ℕ
  | [] => 0
  | x :: xs => xs.foldl max x

/-- Embeds `highest_idf(ngram_freq)`: the maximum `idf` over all entries. -/
noncomputable def highest_idf (t : Table) : ℝ :=
  listMax (t.keys.map (fun g => (t.val g).idf))

/-- Embeds `highest_total_frequency(ngram_freq)`: the maximum
`total_frequency` over all entries. -/
def highest_total_frequency (t : Table) : ℕ :=
  natListMax (t.keys.map (fun g => (t.val g).total_frequency))

/-- `max_frequency = max([count for ngram, count in counts.items()])` inside
`ngram_values` (raises `ValueError` when `counts` is empty; the caller of
this definition checks that case first, as `ngram_values` below does). -/
def max_frequency (corpus : List Str) (n : ℕ) : ℕ :=
  natListMax ((corpus_ngrams corpus n).map (fun g => counts corpus n g))

/-- Key list of the dict `all_ngrams` built by `ngram_values`: the keys of
`defaultdict.fromkeys(all_possible_ngrams(n), ...)` followed by any n-grams
of `occurrences` that were not already present (assigning
`all_ngrams[ngram] = ...` adds such keys at the end, in first-assignment
order). -/
def table_keys (corpus : List Str) (n : ℕ) : List Str :=
  all_possible_ngrams n ++
    (corpus_ngrams corpus n).filter (fun g => g ∉ all_possible_ngrams n)

/-- Value function of the dict `all_ngrams` after the
"set n-gram values based on occurrences in the corpus" loop of
`ngram_values` and before the zero-score re-adjustment: n-grams seen in the
corpus carry their statistics, all others keep the initial
`NGramData(string_frequency=0, total_frequency=0, idf=0)`. -/
noncomputable def pre_val (corpus : List Str) (n : ℕ) : Str → NGramData :=
  fun g =>
    if g ∈ corpus_ngrams corpus n then
      { string_frequency := stringFreq corpus n g
        total_frequency := counts corpus n g
        idf := ngram_idf_value corpus.length (stringFreq corpus n g)
                 (counts corpus n g) (max_frequency corpus n) }
    else { string_frequency := 0, total_frequency := 0, idf := 0 }

/-- The table as it stands before the zero-score re-adjustment. -/
noncomputable def pre_table (corpus : List Str) (n : ℕ) : Table :=
  ⟨table_keys corpus n, pre_val corpus n⟩

/-- `max_idf = ceil(highest_idf(all_ngrams))` computed by `ngram_values`
(Python's `math.ceil` returns an `int`). -/
noncomputable def max_idf_int (corpus : List Str) (n : ℕ) : ℤ :=
  Int.ceil (highest_idf (pre_table corpus n))

/-- Value function of `all_ngrams` after the re-adjustment loop: every entry
whose `idf` equals `0` is replaced by
`NGramData(string_frequency=0, total_frequency=0, idf=max_idf)`. -/
noncomputable def readjust_val (corpus : List Str) (n : ℕ) : Str → NGramData :=
  fun g =>
    if (pre_val corpus n g).idf = 0 then
      { string_frequency := 0, total_frequency := 0,
        idf := ((max_idf_int corpus n : ℤ) : ℝ) }
    else pre_val corpus n g

/-- Embeds `ngram_values(string_list, n, readjust_zero_scores=True)`.
Returns `none` exactly when the Python code raises: the computation of
`max_frequency` is `max` of an empty sequence (`ValueError`) precisely when
no corpus string contributes an n-gram. -/
noncomputable def ngram_values (corpus : List Str) (n : ℕ)
    (readjust_zero_scores : Bool) : Option Table :=
  if (corpus_ngrams corpus n).isEmpty then none
  else if readjust_zero_scores then
    some ⟨table_keys corpus n, readjust_val corpus n⟩
  else some (pre_table corpus n)

/-- `ngram_length = len(next(iter(ngram_freq.keys())))` inside
`tfidf_score_function`: the length of the table's first key. -/
def ngram_length (t : Table) : ℕ := (t.keys.headI).length

/-- `length_penalty = pow(max(0, num_ngrams - len_threshold), len_penalty_exp)`:
natural-number truncated subtraction is exactly `max(0, · - ·)` on
integers, and `pow` with real exponent is `Real.rpow`. -/
noncomputable def length_penalty (len_threshold : ℕ) (len_penalty_exp : ℝ)
    (num_ngrams : ℕ) : ℝ :=
  ((num_ngrams - len_threshold : ℕ) : ℝ) ^ len_penalty_exp

/-- The `sum(...)` of per-n-gram contributions inside `score_function`:
iteration over `ngram_counts.items()` is iteration over the distinct n-grams
of the string with their in-string occurrence counts. -/
noncomputable def ngram_score_sum (t : Table) (repetition_penalty_exp : ℝ)
    (max_freq : ℕ) (s : Str) : ℝ :=
  ((ngrams s (ngram_length t)).dedup.map (fun g =>
      (t.val g).idf
        * ((((ngrams s (ngram_length t)).count g : ℕ) : ℝ) ^ repetition_penalty_exp)
        * (1/2 + 1/2 * (((ngrams s (ngram_length t)).count g : ℕ) : ℝ)
                  / ((max_freq : ℕ) : ℝ)))).sum

/-- Embeds the closure returned by
`tfidf_score_function(ngram_freq, len_threshold, len_penalty_exp,
repetition_penalty_exp)` applied to a string.  `max_freq` is
`highest_total_frequency(ngram_freq)`, captured at factory time.  The result
is `none` when some n-gram of the string is missing from the table
(`ngram_freq[n]` raises `KeyError`). -/
noncomputable def score_function (t : Table) (len_threshold : ℕ)
    (len_penalty_exp repetition_penalty_exp : ℝ) (s : Str) : Option ℝ :=
  if (ngrams s (ngram_length t)).dedup.all (fun g => g ∈ t.keys) then
    some ((ngram_score_sum t repetition_penalty_exp (highest_total_frequency t) s
            + length_penalty len_threshold len_penalty_exp
                (ngrams s (ngram_length t)).length)
          / (1 + ((ngrams s (ngram_length t)).length : ℝ)))
  else none

/-- The character set deleted by `_delchars`:
`string.punctuation + string.digits + ' '`, i.e. the ASCII codes
33-47, 58-64, 91-96, 123-126 (punctuation), 48-57 (digits) and 32 (space). -/
def delchars : Str :=
  ((List.range 128).filter (fun k =>
      (33 ≤ k ∧ k ≤ 47) ∨ (58 ≤ k ∧ k ≤ 64) ∨ (91 ≤ k ∧ k ≤ 96) ∨
      (123 ≤ k ∧ k ≤ 126) ∨ (48 ≤ k ∧ k ≤ 57) ∨ k = 32)).map Char.ofNat

/-- `string.lower().translate(_delchars)`: lower-case, then delete every
character of `delchars`. -/
def normalize (s : Str) : Str :=
  (s.map Char.toLower).filter (fun c => c ∉ delchars)

/-- Outcome of one call to the detector closure produced by
`generate_nonsense_detector`: the `ValueError('Too short to test')`, a
`KeyError` escaping from the scorer's table lookup, or a Boolean verdict. -/
inductive DetectOut where
  | tooShort : DetectOut
  | lookupFail : DetectOut
  | verdict : Bool → DetectOut
deriving DecidableEq

/-- Embeds the (non-tracing) closure `nonsense_detector(string)` returned by
`generate_nonsense_detector(ngram_freq, min_length, min_score, ...)`:
normalize, refuse too-short input, otherwise compare the score with the
threshold (strictly: `string_score(string) > min_score`). -/
noncomputable def nonsense_detector (t : Table) (min_length : ℕ)
    (min_score : ℝ) (score_len_threshold : ℕ)
    (score_len_penalty_exp score_rep_penalty_exp : ℝ) (s : Str) : DetectOut :=
  let s' := normalize s
  if s'.length < min_length then DetectOut.tooShort
  else
    match score_function t score_len_threshold score_len_penalty_exp
        score_rep_penalty_exp s' with
    | none => DetectOut.lookupFail
    | some sc => DetectOut.verdict (if min_score < sc then true else false)

/-- Modelled from the spec (section 4.3), for comparison with
`score_function`: the score of `s` is the sum over the distinct n-grams `g`
of `s` of `idf(g) * c(g)^repetition_penalty_exponent *
(0.5 + 0.5 * c(g) / max_total_frequency)`, plus
`max(0, m - length_threshold) ^ length_penalty_exponent`, divided by
`(1 + m)`, where `m` is the number of extracted n-grams. -/
noncomputable def spec_score (t : Table) (length_threshold : ℕ)
    (length_penalty_exponent repetition_penalty_exponent : ℝ) (s : Str) : ℝ :=
  let gs : List Str := ngrams s (ngram_length t)
  let c : Str → ℕ := fun g => gs.count g
  let contribution : Str → ℝ := fun g =>
    (t.val g).idf * ((c g : ℝ) ^ repetition_penalty_exponent)
      * (1/2 + 1/2 * (c g : ℝ) / (highest_total_frequency t : ℝ))
  let lengthPenaltySpec : ℝ :=
    ((max 0 ((gs.length : ℤ) - (length_threshold : ℤ)) : ℤ) : ℝ)
      ^ length_penalty_exponent
  (gs.toFinset.sum contribution + lengthPenaltySpec) / (1 + (gs.length : ℝ))

/-! ### Supporting lemmas -/

theorem ngrams_length_of_le {s : Str} {n : ℕ} (hn : n ≤ s.length) :
    (ngrams s n).length = s.length - n + 1 := by
  simp [ngrams]
  omega

theorem ngrams_getElem {s : Str} {n : ℕ} {i : ℕ}
    (hi : i < (ngrams s n).length) :
    (ngrams s n)[i] = (s.drop i).take n := by
  simp [ngrams]

theorem ngrams_window_length {s : Str} {n : ℕ} (hn : n ≤ s.length) {i : ℕ}
    (hi : i < (ngrams s n).length) : ((s.drop i).take n).length = n := by
  have hi' : i < s.length + 1 - n := by simpa [ngrams] using hi
  simp [List.length_take, List.length_drop]
  omega

theorem ngrams_eq_nil_of_lt {s : Str} {n : ℕ} (h : s.length < n) :
    ngrams s n = [] := by
  have : s.length + 1 - n = 0 := by omega
  simp [ngrams, this]

/-! ### Claim theorems -/

/-- Claim C9: for `1 ≤ n ≤ len s`, `ngrams` returns exactly the ordered
left-to-right sequence of all `len s - n + 1` contiguous substrings of
length `n` (window `i` is `s[i : i + n]`, advancing one character at a
time), and for `n > len s` it returns the empty sequence. -/
theorem C9_ngrams_spec (s : Str) (n : ℕ) :
    (1 ≤ n → n ≤ s.length →
      (ngrams s n).length = s.length - n + 1 ∧
      ∀ i, (hi : i < (ngrams s n).length) →
        (ngrams s n).get ⟨i, hi⟩ = (s.drop i).take n ∧
        ((s.drop i).take n).length = n) ∧
    (s.length < n → ngrams s n = []) := by
  refine ⟨fun _ hle => ⟨ngrams_length_of_le hle, fun i hi => ?_⟩,
    fun hlt => ngrams_eq_nil_of_lt hlt⟩
  exact ⟨ngrams_getElem hi, ngrams_window_length hle hi⟩

/-- Witness for C9 at `s = "abcd"`, `n = 2`: there are `4 - 2 + 1 = 3`
windows and window 1 is `"bc"`, of length 2. -/
theorem C9_ngrams_spec_witness :
    (ngrams ['a','b','c','d'] 2).length = 4 - 2 + 1 ∧
    (ngrams ['a','b','c','d'] 2).get ⟨1, by decide⟩ =
        ((['a','b','c','d'] : Str).drop 1).take 2 ∧
    (((['a','b','c','d'] : Str).drop 1).take 2).length = 2 := by
  have h := (C9_ngrams_spec ['a','b','c','d'] 2).1 (by decide) (by decide)
  exact ⟨h.1, h.2 1 (by decide)⟩

/-- Claim C7: the detector raises the too-short error exactly when the
normalized string is strictly shorter than `min_length`; in every other
case it proceeds to scoring, so no verdict coexists with the error. -/
theorem C7_too_short_iff (t : Table) (min_length : ℕ) (min_score : ℝ)
    (thr : ℕ) (lpe rpe : ℝ) (s : Str) :
    nonsense_detector t min_length min_score thr lpe rpe s = DetectOut.tooShort
      ↔ (normalize s).length < min_length := by
  unfold nonsense_detector
  by_cases h : (normalize s).length < min_length
  · simp [h]
  · simp only [if_neg h]
    cases hm : score_function t thr lpe rpe (normalize s) with
    | none => simp [h]
    | some sc => simp [h]

/-- Claim C5: a raw input whose normalized form is long enough but still
contains a tab is neither scored nor rejected as too short: the detector
built from an `ngram_values` table (here over corpus `["abcdef"]` with
`n = 1` and the default hyperparameters) dies on the failed table lookup
(`KeyError`), because normalization does not delete the tab and the table
has no key containing it. -/
theorem C5_keyerror_on_tab :
    (ngram_values [['a','b','c','d','e','f']] 1 true).map
        (fun t => nonsense_detector t 6 (8.47 : ℝ) 25 (0.9233 : ℝ) (0.9674 : ℝ)
          ['a','b','\t','c','d','e','f'])
      = some DetectOut.lookupFail ∧
    (normalize ['a','b','\t','c','d','e','f']).length = 7 ∧ 6 ≤ 7 := by
  exact ⟨rfl, by decide, by decide⟩

/-- Counterexample to claim C4: the tab character is whitespace, is not a
lowercase Latin letter, and survives normalization, so normalization does
not produce a string of lowercase letters for every raw input. -/
theorem C4_counterexample :
    '\t' ∈ normalize ['a','b','\t','c','d','e'] ∧ '\t' ∉ all_letters := by
  exact ⟨by decide, by decide⟩

/-- Counterexample to claim C6: with window length `n = 0` (the only `n < 1`
in ℕ) and the non-empty corpus `["ab"]`, the table builder does not fail: it
returns a (degenerate) table. -/
theorem C6_counterexample :
    (ngram_values [['a','b']] 0 true).isSome = true := by
  rfl

/-- Claim C6 as amended: the builder fails exactly when no corpus string
contributes an n-gram (in particular whenever the corpus is empty); a window
length of `0` with a non-empty corpus does not make it fail. -/
theorem C6_amended_failure_iff (corpus : List Str) (n : ℕ)
    (readjust : Bool) :
    (ngram_values corpus n readjust = none ↔ corpus_ngrams corpus n = []) ∧
    (corpus = [] → ngram_values corpus n readjust = none) := by
  constructor
  · unfold ngram_values
    by_cases he : (corpus_ngrams corpus n).isEmpty = true
    · simp [he, List.isEmpty_iff.mp he]
    · have : corpus_ngrams corpus n ≠ [] := fun hnil => he (by simp [hnil])
      simp [he, this]
      intro h
      cases readjust <;> simp_all
  · intro hc
    subst hc
    rfl

/-- Witness for C6 as amended: the empty corpus fails, and so does a corpus
whose strings are all shorter than the window length. -/
theorem C6_amended_witness :
    ngram_values ([] : List Str) 2 true = none ∧
    ngram_values [['a','b']] 5 true = none := by
  exact ⟨(C6_amended_failure_iff [] 2 true).2 rfl,
    (C6_amended_failure_iff [['a','b']] 5 true).1.mpr (by decide)⟩

/-- The printable ASCII characters (codes 32-126): exactly the union of
space, punctuation, digits and (both-case) letters. -/
def benign_chars : Str := (List.range 95).map (fun k => Char.ofNat (32 + k))

/-- Claim C4 as amended: normalization deletes exactly ASCII punctuation,
digits and the space character (after lower-casing), so for inputs made of
printable ASCII characters the normalized string contains only lowercase
Latin letters.  (Other characters, such as tab or newline, survive; see the
counterexample.) -/
theorem C4_amended_normalize_printable (s : Str)
    (hs : ∀ c ∈ s, c ∈ benign_chars) :
    ∀ c ∈ normalize s, c ∈ all_letters := by
  have key : ∀ c ∈ benign_chars,
      Char.toLower c ∉ delchars → Char.toLower c ∈ all_letters := by decide
  intro c hc
  rcases List.mem_filter.mp hc with ⟨hmem, hkeep⟩
  rcases List.mem_map.mp hmem with ⟨c0, hc0, rfl⟩
  exact key c0 (hs c0 hc0) (by simpa using hkeep)

/-- Witness for C4 as amended at the printable-ASCII input `"Hello, W0rld!"`:
every character of its normalization is a lowercase letter. -/
theorem C4_amended_witness :
    (∀ c ∈ (['H','e','l','l','o',',',' ','W','0','r','l','d','!'] : Str),
        c ∈ benign_chars) ∧
    ∀ c ∈ normalize ['H','e','l','l','o',',',' ','W','0','r','l','d','!'],
        c ∈ all_letters := by
  exact ⟨by decide, C4_amended_normalize_printable _ (by decide)⟩

/-! ### The universe of possible n-grams -/

theorem apn_succ_succ (k : ℕ) :
    all_possible_ngrams (k + 2) =
      all_letters.flatMap (fun letter =>
        (all_possible_ngrams (k + 1)).map (fun ngram => letter :: ngram)) :=
  rfl

theorem mem_all_possible_ngrams {n : ℕ} {g : Str} :
    g ∈ all_possible_ngrams (n + 1) ↔
      g.length = n + 1 ∧ ∀ c ∈ g, c ∈ all_letters := by
  induction n generalizing g with
  | zero =>
    simp only [all_possible_ngrams, List.mem_map]
    constructor
    · rintro ⟨c, hc, rfl⟩
      simpa using hc
    · rintro ⟨hlen, hall⟩
      rcases List.length_eq_one.mp hlen with ⟨a, rfl⟩
      exact ⟨a, hall a (by simp), rfl⟩
  | succ k ih =>
    rw [apn_succ_succ]
    simp only [List.mem_flatMap, List.mem_map]
    constructor
    · rintro ⟨c, hc, g', hg', rfl⟩
      rcases ih.mp hg' with ⟨hlen, hall⟩
      refine ⟨by simp [hlen], ?_⟩
      intro x hx
      rcases List.mem_cons.mp hx with rfl | hx
      · exact hc
      · exact hall x hx
    · rintro ⟨hlen, hall⟩
      cases g with
      | nil => simp at hlen
      | cons c g' =>
        exact ⟨c, hall c (by simp), g',
          ih.mpr ⟨by simpa using hlen, fun x hx => hall x (by simp [hx])⟩, rfl⟩

theorem length_all_possible_ngrams :
    ∀ n : ℕ, (all_possible_ngrams (n + 1)).length = 26 ^ (n + 1) := by
  intro n
  induction n with
  | zero => decide
  | succ k ih =>
    rw [apn_succ_succ, List.length_flatMap]
    have hconst : List.map
        (List.length ∘ fun letter =>
          (all_possible_ngrams (k + 1)).map (fun ngram => letter :: ngram))
        all_letters = List.map (fun _ => 26 ^ (k + 1)) all_letters := by
      refine List.map_congr_left (fun c _ => ?_)
      simp [ih]
    rw [hconst]
    have : List.map (fun _ => 26 ^ (k + 1)) all_letters =
        List.replicate all_letters.length (26 ^ (k + 1)) := List.map_const _ _
    rw [this, List.sum_replicate]
    have h26 : all_letters.length = 26 := by decide
    rw [h26, smul_eq_mul]
    ring

theorem nodup_all_possible_ngrams :
    ∀ n : ℕ, (all_possible_ngrams (n + 1)).Nodup := by
  intro n
  induction n with
  | zero => decide
  | succ k ih =>
    rw [apn_succ_succ, List.nodup_flatMap]
    constructor
    · intro c _
      exact ih.map (fun a b h => by injection h)
    · have hnd : all_letters.Nodup := by decide
      refine hnd.imp ?_
      intro a b hab g hga hgb
      rcases List.mem_map.mp hga with ⟨x, _, rfl⟩
      rcases List.mem_map.mp hgb with ⟨y, _, hy⟩
      injection hy with h1 _
      exact hab h1.symm

/-! ### N-grams occurring in a string or corpus -/

theorem length_of_mem_ngrams {s : Str} {n : ℕ} {g : Str}
    (h : g ∈ ngrams s n) : g.length = n := by
  rcases List.mem_map.mp h with ⟨i, hi, rfl⟩
  have hi' : i < s.length + 1 - n := List.mem_range.mp hi
  simp [List.length_take, List.length_drop]
  omega

theorem subset_of_mem_ngrams {s : Str} {n : ℕ} {g : Str}
    (h : g ∈ ngrams s n) : ∀ c ∈ g, c ∈ s := by
  rcases List.mem_map.mp h with ⟨i, _, rfl⟩
  intro c hc
  exact List.drop_subset i s (List.take_subset n (s.drop i) hc)

theorem lower_eq_self {s : Str} (hs : ∀ c ∈ s, c ∈ all_letters) :
    lower s = s := by
  have key : ∀ c ∈ all_letters, Char.toLower c = c := by decide
  calc lower s = s.map id := List.map_congr_left (fun c hc => key c (hs c hc))
    _ = s := List.map_id s

theorem stringFreq_pos {corpus : List Str} {n : ℕ} {g : Str}
    (h : g ∈ corpus_ngrams corpus n) : 0 < stringFreq corpus n g := by
  rcases List.mem_flatten.mp (List.mem_dedup.mp h) with ⟨l, hl, hgl⟩
  rcases List.mem_map.mp hl with ⟨s, hs, rfl⟩
  have hsd : s ∈ (corpus.map lower).dedup := List.mem_dedup.mpr hs
  have hmem : s ∈ ((corpus.map lower).dedup).filter (fun s => g ∈ ngrams s n) :=
    List.mem_filter.mpr ⟨hsd, by simpa using hgl⟩
  exact List.length_pos.mpr (List.ne_nil_of_mem hmem)

theorem corpus_ngrams_subset_all {corpus : List Str} {n : ℕ}
    (hletters : ∀ s ∈ corpus, ∀ c ∈ s, c ∈ all_letters) (hn : 1 ≤ n) :
    ∀ g ∈ corpus_ngrams corpus n, g ∈ all_possible_ngrams n := by
  intro g hg
  rcases List.mem_flatten.mp (List.mem_dedup.mp hg) with ⟨l, hl, hgl⟩
  rcases List.mem_map.mp hl with ⟨s0, hs0, rfl⟩
  rcases List.mem_map.mp hs0 with ⟨s, hs, rfl⟩
  rw [lower_eq_self (hletters s hs)] at hgl
  obtain ⟨m, rfl⟩ : ∃ m, n = m + 1 := ⟨n - 1, by omega⟩
  exact mem_all_possible_ngrams.mpr ⟨length_of_mem_ngrams hgl,
    fun c hc => hletters s hs c (subset_of_mem_ngrams hgl c hc)⟩

theorem corpus_ngrams_ne_nil {corpus : List Str} {n : ℕ} {s : Str}
    (hs : s ∈ corpus) (hlen : n ≤ s.length) :
    corpus_ngrams corpus n ≠ [] := by
  have hlow : n ≤ (lower s).length := by simpa [lower] using hlen
  have hne : ngrams (lower s) n ≠ [] := by
    have := ngrams_length_of_le hlow
    intro hnil
    rw [hnil] at this
    simp at this
  rcases List.exists_mem_of_ne_nil _ hne with ⟨g, hg⟩
  have : g ∈ corpus_ngrams corpus n :=
    List.mem_dedup.mpr (List.mem_flatten.mpr
      ⟨ngrams (lower s) n, List.mem_map.mpr ⟨lower s,
        List.mem_map.mpr ⟨s, hs, rfl⟩, rfl⟩, hg⟩)
  exact List.ne_nil_of_mem this

/-- Claim C10 as amended: for `n ≥ 1` and a corpus of lowercase-letter
strings at least one of which is long enough to contribute an n-gram, the
built table has exactly `26 ^ n` (distinct) entries and contains every
lowercase n-gram of length `n`, so scoring-time lookups cannot fail. -/
theorem C10_amended_table_complete (corpus : List Str) (n : ℕ)
    (hn : 1 ≤ n)
    (hletters : ∀ s ∈ corpus, ∀ c ∈ s, c ∈ all_letters)
    (hlong : ∃ s ∈ corpus, n ≤ s.length) :
    ∃ t, ngram_values corpus n true = some t ∧
      t.keys.length = 26 ^ n ∧ t.keys.Nodup ∧
      ∀ g : Str, g.length = n → (∀ c ∈ g, c ∈ all_letters) → g ∈ t.keys := by
  rcases hlong with ⟨s, hs, hlen⟩
  have hne : corpus_ngrams corpus n ≠ [] := corpus_ngrams_ne_nil hs hlen
  have hemp : ¬((corpus_ngrams corpus n).isEmpty = true) := by
    simpa [List.isEmpty_iff] using hne
  have hkeys : table_keys corpus n = all_possible_ngrams n := by
    unfold table_keys
    have : (corpus_ngrams corpus n).filter
        (fun g => g ∉ all_possible_ngrams n) = [] := by
      refine List.filter_eq_nil_iff.mpr (fun g hg => ?_)
      simpa using corpus_ngrams_subset_all hletters hn g hg
    rw [this, List.append_nil]
  refine ⟨⟨table_keys corpus n, readjust_val corpus n⟩, ?_, ?_, ?_, ?_⟩
  · unfold ngram_values
    rw [if_neg hemp, if_pos rfl]
  · obtain ⟨m, rfl⟩ : ∃ m, n = m + 1 := ⟨n - 1, by omega⟩
    simpa [hkeys] using length_all_possible_ngrams m
  · obtain ⟨m, rfl⟩ : ∃ m, n = m + 1 := ⟨n - 1, by omega⟩
    simpa [hkeys] using nodup_all_possible_ngrams m
  · intro g hglen hgall
    obtain ⟨m, rfl⟩ : ∃ m, n = m + 1 := ⟨n - 1, by omega⟩
    simpa [hkeys] using mem_all_possible_ngrams.mpr ⟨hglen, hgall⟩

/-- Witness for C10 as amended: corpus `["ab"]`, `n = 1`. -/
theorem C10_amended_witness :
    1 ≤ 1 ∧
    (∀ s ∈ [(['a','b'] : Str)], ∀ c ∈ s, c ∈ all_letters) ∧
    (∃ s ∈ [(['a','b'] : Str)], 1 ≤ s.length) ∧
    ∃ t, ngram_values [['a','b']] 1 true = some t ∧
      t.keys.length = 26 ^ 1 ∧ t.keys.Nodup ∧
      ∀ g : Str, g.length = 1 → (∀ c ∈ g, c ∈ all_letters) → g ∈ t.keys := by
  refine ⟨by decide, by decide, ⟨['a','b'], by decide, by decide⟩, ?_⟩
  exact C10_amended_table_complete [['a','b']] 1 (by decide) (by decide)
    ⟨['a','b'], by decide, by decide⟩

/-- Counterexample to claim C10: the corpus `["a1"]` (which contains a
digit) with `n = 1` builds a table of 27 entries, not `26 ^ 1`: the n-gram
`"1"` is added to the table alongside the 26 initialized letter keys. -/
theorem C10_counterexample :
    ∃ t, ngram_values [['a','1']] 1 true = some t ∧
      t.keys.length = 27 ∧ 27 ≠ 26 ^ 1 := by
  exact ⟨⟨table_keys [['a','1']] 1, readjust_val [['a','1']] 1⟩, rfl,
    by decide, by decide⟩

/-! ### Maximum of a list of reals -/

theorem foldl_max_le (l : List ℝ) :
    ∀ (a x : ℝ), a ≤ x → (∀ y ∈ l, y ≤ x) → l.foldl max a ≤ x := by
  induction l with
  | nil => intro a x ha _; simpa using ha
  | cons h t ih =>
    intro a x ha hl
    simp only [List.foldl_cons]
    exact ih _ x (max_le ha (hl h (by simp))) (fun y hy => hl y (by simp [hy]))

theorem le_foldl_max (l : List ℝ) : ∀ (a : ℝ), a ≤ l.foldl max a := by
  induction l with
  | nil => simp
  | cons h t ih =>
    intro a
    simp only [List.foldl_cons]
    exact le_trans (le_max_left a h) (ih _)

theorem mem_le_foldl_max (l : List ℝ) :
    ∀ (a : ℝ), ∀ y ∈ l, y ≤ l.foldl max a := by
  induction l with
  | nil => simp
  | cons h t ih =>
    intro a y hy
    rcases List.mem_cons.mp hy with rfl | hy
    · simp only [List.foldl_cons]
      exact le_trans (le_max_right a y) (le_foldl_max t _)
    · simp only [List.foldl_cons]
      exact ih _ y hy

theorem listMax_eq {l : List ℝ} {x : ℝ} (hmem : x ∈ l)
    (hub : ∀ y ∈ l, y ≤ x) : listMax l = x := by
  cases l with
  | nil => simp at hmem
  | cons h t =>
    show t.foldl max h = x
    refine le_antisymm (foldl_max_le t h x (hub h (by simp))
      (fun y hy => hub y (by simp [hy]))) ?_
    rcases List.mem_cons.mp hmem with rfl | hx
    · exact le_foldl_max t x
    · exact mem_le_foldl_max t h x hx

/-! ### The corpus `["a"]` with `n = 1` (counterexample material for C1) -/

theorem logb_two_half : Real.logb 2 ((1 : ℝ) / (1 + 1)) = -1 := by
  have h : ((1 : ℝ) / (1 + 1)) = (2 : ℝ)⁻¹ := by norm_num
  rw [h, Real.logb_inv, Real.logb_self_eq_one (by norm_num)]

theorem pre_val_single_a (g : Str) :
    pre_val [['a']] 1 g =
      if g = ['a'] then ⟨1, 1, Real.logb 2 ((1 : ℝ) / (1 + 1))⟩
      else ⟨0, 0, 0⟩ := by
  by_cases hg : g = ['a']
  · subst hg
    have h1 : (['a'] : Str) ∈ corpus_ngrams [['a']] 1 := by decide
    have h2 : stringFreq [['a']] 1 ['a'] = 1 := by decide
    have h3 : counts [['a']] 1 ['a'] = 1 := by decide
    simp [pre_val, h1, h2, h3, ngram_idf_value]
  · have h1 : g ∉ corpus_ngrams [['a']] 1 := by
      have hc : corpus_ngrams [['a']] 1 = [['a']] := by decide
      rw [hc]
      simpa using hg
    simp [pre_val, h1, hg]

theorem highest_idf_single_a : highest_idf (pre_table [['a']] 1) = 0 := by
  unfold highest_idf pre_table
  refine listMax_eq ?_ ?_
  · refine List.mem_map.mpr ⟨['b'], by decide, ?_⟩
    show (pre_val [['a']] 1 ['b']).idf = 0
    rw [pre_val_single_a, if_neg (by decide)]
  · intro y hy
    rcases List.mem_map.mp hy with ⟨g, _, rfl⟩
    show (pre_val [['a']] 1 g).idf ≤ 0
    rw [pre_val_single_a g]
    by_cases hg : g = ['a']
    · rw [if_pos hg]
      show Real.logb 2 ((1 : ℝ) / (1 + 1)) ≤ 0
      rw [logb_two_half]
      norm_num
    · rw [if_neg hg]

theorem max_idf_single_a : max_idf_int [['a']] 1 = 0 := by
  unfold max_idf_int
  rw [highest_idf_single_a]
  exact Int.ceil_zero

theorem readjust_val_single_a (g : Str) :
    readjust_val [['a']] 1 g =
      if g = ['a'] then ⟨1, 1, Real.logb 2 ((1 : ℝ) / (1 + 1))⟩
      else ⟨0, 0, 0⟩ := by
  unfold readjust_val
  rw [pre_val_single_a g]
  by_cases hg : g = ['a']
  · simp only [if_pos hg]
    rw [if_neg (show ¬ Real.logb 2 ((1 : ℝ) / (1 + 1)) = 0 by
      rw [logb_two_half]; norm_num)]
  · simp only [if_neg hg]
    simp [max_idf_single_a]

/-- Counterexample to claim C1: for the corpus `["a"]` with `n = 1`, the
n-gram `"b"` is a table entry with `string_frequency = 0` and the corpus
does not use every possible n-gram, yet its `idf` is `0` and not
`ceil(-1) = -1`, the ceiling of the maximum idf over the n-grams with
`string_frequency > 0` (all observed idfs are negative here, and the code's
`highest_idf` maximum also ranges over the zero-initialized unseen
entries). -/
theorem C1_counterexample :
    ∃ t, ngram_values [['a']] 1 true = some t ∧
      ['b'] ∈ t.keys ∧ (t.val ['b']).string_frequency = 0 ∧
      ['b'] ∉ corpus_ngrams [['a']] 1 ∧
      (t.val ['b']).idf = 0 ∧
      Int.ceil (listMax (((t.keys.filter
          (fun g => 0 < (t.val g).string_frequency)).map
          (fun g => (t.val g).idf)))) = -1 ∧
      (0 : ℝ) ≠ (((-1 : ℤ)) : ℝ) := by
  refine ⟨⟨table_keys [['a']] 1, readjust_val [['a']] 1⟩, rfl, by decide,
    ?_, by decide, ?_, ?_, by norm_num⟩
  · show (readjust_val [['a']] 1 ['b']).string_frequency = 0
    rw [readjust_val_single_a, if_neg (by decide)]
  · show (readjust_val [['a']] 1 ['b']).idf = 0
    rw [readjust_val_single_a, if_neg (by decide)]
  · have hkeys : table_keys [['a']] 1 =
        (['a'] : Str) :: (all_possible_ngrams 1).tail := by decide
    have htail : ∀ g ∈ (all_possible_ngrams 1).tail, g ≠ (['a'] : Str) := by
      decide
    have hfilter : (table_keys [['a']] 1).filter
        (fun g => 0 < (readjust_val [['a']] 1 g).string_frequency) =
        [['a']] := by
      rw [hkeys, List.filter_cons]
      have ha : readjust_val [['a']] 1 ['a'] =
          ⟨1, 1, Real.logb 2 ((1 : ℝ) / (1 + 1))⟩ := by
        rw [readjust_val_single_a, if_pos rfl]
      rw [ha]
      have hrest : ((all_possible_ngrams 1).tail).filter
          (fun g => 0 < (readjust_val [['a']] 1 g).string_frequency) = [] := by
        refine List.filter_eq_nil_iff.mpr (fun g hg => ?_)
        rw [readjust_val_single_a, if_neg (htail g hg)]
        simp
      rw [hrest]
      simp
    show Int.ceil (listMax ((((table_keys [['a']] 1).filter
        (fun g => 0 < (readjust_val [['a']] 1 g).string_frequency)).map
        (fun g => (readjust_val [['a']] 1 g).idf)))) = -1
    rw [hfilter]
    have ha : readjust_val [['a']] 1 ['a'] =
        ⟨1, 1, Real.logb 2 ((1 : ℝ) / (1 + 1))⟩ := by
      rw [readjust_val_single_a, if_pos rfl]
    rw [List.map_cons, List.map_nil, ha]
    show Int.ceil (listMax [Real.logb 2 ((1 : ℝ) / (1 + 1))]) = -1
    have : listMax [Real.logb 2 ((1 : ℝ) / (1 + 1))] =
        Real.logb 2 ((1 : ℝ) / (1 + 1)) := rfl
    rw [this, logb_two_half]
    rw [show ((-1 : ℝ)) = (((-1 : ℤ)) : ℝ) by norm_num, Int.ceil_intCast]

/-- Claim C1 as amended: after `ngram_values` (with re-adjustment) every
table entry whose final `string_frequency` is `0` carries
`idf = ceil(highest_idf(pre_table))`, the ceiling of the maximum idf over
ALL entries of the table as it stood before the re-adjustment pass
(observed n-grams carrying `log2(N / (1 + string_frequency))`, never-seen
ones still carrying their initialized `0`). -/
theorem C1_amended_zero_entries_idf (corpus : List Str) (n : ℕ) (t : Table)
    (h : ngram_values corpus n true = some t) (g : Str) (hg : g ∈ t.keys)
    (hsf : (t.val g).string_frequency = 0) :
    (t.val g).idf = ((max_idf_int corpus n : ℤ) : ℝ) := by
  unfold ngram_values at h
  by_cases he : (corpus_ngrams corpus n).isEmpty = true
  · rw [if_pos he] at h
    cases h
  · rw [if_neg he, if_pos rfl] at h
    cases h
    show (readjust_val corpus n g).idf = ((max_idf_int corpus n : ℤ) : ℝ)
    unfold readjust_val
    by_cases hz : (pre_val corpus n g).idf = 0
    · rw [if_pos hz]
    · rw [if_neg hz]
      have hsf' : (readjust_val corpus n g).string_frequency = 0 := hsf
      unfold readjust_val at hsf'
      rw [if_neg hz] at hsf'
      by_cases hm : g ∈ corpus_ngrams corpus n
      · exfalso
        have hpos := stringFreq_pos hm
        unfold pre_val at hsf'
        rw [if_pos hm] at hsf'
        have h0 : stringFreq corpus n g = 0 := hsf'
        omega
      · exfalso
        apply hz
        unfold pre_val
        rw [if_neg hm]

/-- Witness for C1 as amended: corpus `["a"]`, `n = 1`, entry `"b"`. -/
theorem C1_amended_witness :
    (readjust_val [['a']] 1 ['b']).string_frequency = 0 ∧
    (readjust_val [['a']] 1 ['b']).idf = ((max_idf_int [['a']] 1 : ℤ) : ℝ) := by
  have hsf : (readjust_val [['a']] 1 ['b']).string_frequency = 0 := by
    rw [readjust_val_single_a, if_neg (by decide)]
  exact ⟨hsf, C1_amended_zero_entries_idf [['a']] 1
    ⟨table_keys [['a']] 1, readjust_val [['a']] 1⟩ rfl ['b'] (by decide) hsf⟩

/-- Claim C2 / code bug: for the corpus `["ax", "ay", "b"]` with `n = 1`,
the n-gram `"a"` is observed (counting pass: `string_frequency = 2`,
`total_frequency = 2`) and its idf `log2(3 / (1 + 2)) = 0`, so the
zero-score re-adjustment — which tests `idf == 0` instead of
`string_frequency == 0` — overwrites this observed entry with
`string_frequency = 0, total_frequency = 0`, losing its counted
frequencies, contrary to the claim (and to the function's own
docstring). -/
theorem C2_observed_entry_clobbered :
    ∃ t, ngram_values [['a','x'],['a','y'],['b']] 1 true = some t ∧
      stringFreq [['a','x'],['a','y'],['b']] 1 ['a'] = 2 ∧
      counts [['a','x'],['a','y'],['b']] 1 ['a'] = 2 ∧
      (t.val ['a']).string_frequency = 0 ∧
      (t.val ['a']).total_frequency = 0 := by
  have hmem : (['a'] : Str) ∈ corpus_ngrams [['a','x'],['a','y'],['b']] 1 := by
    decide
  have hsf : stringFreq [['a','x'],['a','y'],['b']] 1 ['a'] = 2 := by decide
  have hidf : (pre_val [['a','x'],['a','y'],['b']] 1 ['a']).idf = 0 := by
    unfold pre_val
    rw [if_pos hmem]
    show ngram_idf_value (List.length [['a','x'],['a','y'],['b']])
        (stringFreq [['a','x'],['a','y'],['b']] 1 ['a'])
        (counts [['a','x'],['a','y'],['b']] 1 ['a'])
        (max_frequency [['a','x'],['a','y'],['b']] 1) = 0
    rw [hsf]
    unfold ngram_idf_value
    have harg : ((List.length [['a','x'],['a','y'],['b']] : ℕ) : ℝ)
        / (1 + ((2 : ℕ) : ℝ)) = 1 := by
      norm_num
    rw [harg, Real.logb_one]
  have hval : readjust_val [['a','x'],['a','y'],['b']] 1 ['a'] =
      ⟨0, 0, ((max_idf_int [['a','x'],['a','y'],['b']] 1 : ℤ) : ℝ)⟩ := by
    unfold readjust_val
    rw [if_pos hidf]
  refine ⟨⟨table_keys [['a','x'],['a','y'],['b']] 1,
      readjust_val [['a','x'],['a','y'],['b']] 1⟩, rfl, hsf, by decide, ?_, ?_⟩
  · show (readjust_val [['a','x'],['a','y'],['b']] 1 ['a']).string_frequency = 0
    rw [hval]
  · show (readjust_val [['a','x'],['a','y'],['b']] 1 ['a']).total_frequency = 0
    rw [hval]

/-! ### The scorer closed form (C3) -/

theorem dedup_map_sum_eq_finset_sum (l : List Str) (f : Str → ℝ) :
    (l.dedup.map f).sum = l.toFinset.sum f := by
  have h1 : l.dedup.toFinset = l.toFinset := by
    ext a
    simp [List.mem_toFinset, List.mem_dedup]
  rw [← h1, List.sum_toFinset f (List.nodup_dedup l)]

theorem length_penalty_eq_spec (thr : ℕ) (lpe : ℝ) (m : ℕ) :
    length_penalty thr lpe m =
      ((max 0 ((m : ℤ) - (thr : ℤ)) : ℤ) : ℝ) ^ lpe := by
  unfold length_penalty
  have h : ((m - thr : ℕ) : ℤ) = max 0 ((m : ℤ) - (thr : ℤ)) := by omega
  rw [show ((m - thr : ℕ) : ℝ) = (((m - thr : ℕ) : ℤ) : ℝ) by push_cast; ring, h]

/-- Claim C3: on an already-cleaned lowercase string, and over a table that
contains every lowercase n-gram of its window length (as built tables do),
the scorer returns exactly the spec's closed form: the sum of
`idf(g) * c(g)^ρ * (0.5 + 0.5 c(g)/max_total_frequency)` over the distinct
n-grams of the string, plus `max(0, m - threshold)^λ`, divided by `1 + m`;
the length penalty vanishes for `m ≤ threshold` (for a non-zero exponent),
and the degenerate case `m = 0` yields the defined low score `0` rather
than an error. -/
theorem C3_scorer_formula (t : Table) (thr : ℕ) (lpe rpe : ℝ) (s : Str)
    (hcomplete : ∀ g : Str, g.length = ngram_length t →
      (∀ c ∈ g, c ∈ all_letters) → g ∈ t.keys)
    (hs : ∀ c ∈ s, c ∈ all_letters) :
    score_function t thr lpe rpe s = some (spec_score t thr lpe rpe s) ∧
    ((ngrams s (ngram_length t)).length ≤ thr → lpe ≠ 0 →
      length_penalty thr lpe (ngrams s (ngram_length t)).length = 0) ∧
    (ngrams s (ngram_length t) = [] → lpe ≠ 0 →
      score_function t thr lpe rpe s = some 0) := by
  have hall : ((ngrams s (ngram_length t)).dedup.all
      (fun g => g ∈ t.keys)) = true := by
    refine List.all_eq_true.mpr (fun g hg => ?_)
    rw [decide_eq_true_eq]
    have hmem : g ∈ ngrams s (ngram_length t) := List.mem_dedup.mp hg
    exact hcomplete g (length_of_mem_ngrams hmem)
      (fun c hc => hs c (subset_of_mem_ngrams hmem c hc))
  refine ⟨?_, ?_, ?_⟩
  · unfold score_function
    rw [if_pos hall]
    unfold spec_score ngram_score_sum
    rw [dedup_map_sum_eq_finset_sum, length_penalty_eq_spec]
  · intro hm hlpe
    unfold length_penalty
    rw [Nat.sub_eq_zero_of_le hm]
    simpa using Real.zero_rpow hlpe
  · intro hnil hlpe
    unfold score_function
    rw [if_pos hall]
    unfold ngram_score_sum length_penalty
    rw [hnil]
    simp [Real.zero_rpow hlpe]

/-- Witness for C3 at the complete one-letter-window table with all
statistics `1` and the string `"ab"`. -/
theorem C3_scorer_formula_witness :
    (∀ c ∈ (['a','b'] : Str), c ∈ all_letters) ∧
    score_function ⟨all_possible_ngrams 1, fun _ => ⟨1, 1, 1⟩⟩ 25 1 1 ['a','b']
      = some (spec_score ⟨all_possible_ngrams 1, fun _ => ⟨1, 1, 1⟩⟩ 25 1 1
          ['a','b']) := by
  refine ⟨by decide, (C3_scorer_formula _ 25 1 1 ['a','b'] ?_ (by decide)).1⟩
  intro g h1 h2
  exact mem_all_possible_ngrams.mpr ⟨h1, h2⟩

/-! ### Monotonicity material (C8) -/

theorem ngrams_append (s u : Str) (n : ℕ) :
    ∃ r, ngrams (s ++ u) n = ngrams s n ++ r := by
  have hk : (ngrams (s ++ u) n).take (s.length + 1 - n) = ngrams s n := by
    unfold ngrams
    rw [← List.map_take, List.take_range]
    have hmin : (s.length + 1 - n) ⊓ ((s ++ u).length + 1 - n) =
        s.length + 1 - n := by
      simp [List.length_append]
      omega
    rw [hmin]
    refine List.map_congr_left (fun i hi => ?_)
    have hi' : i < s.length + 1 - n := List.mem_range.mp hi
    rw [List.drop_append_of_le_length (by omega : i ≤ s.length)]
    rw [List.take_append_of_le_length (by simp [List.length_drop]; omega)]
  exact ⟨(ngrams (s ++ u) n).drop (s.length + 1 - n),
    by rw [← hk, List.take_append_drop]⟩

/-- A table for the C8 scenario: window length 1, all total frequencies 1,
`idf("z") = 1` and every other idf `0`. -/
noncomputable def demo_table : Table :=
  ⟨all_possible_ngrams 1,
    fun g => if g = ['z'] then ⟨1, 1, 1⟩ else ⟨1, 1, 0⟩⟩

theorem demo_val_z : demo_table.val ['z'] = ⟨1, 1, 1⟩ := by
  simp [demo_table]

theorem demo_val_a : demo_table.val ['a'] = ⟨1, 1, 0⟩ := by
  simp [demo_table, show ¬(['a'] : Str) = ['z'] by decide]

theorem demo_score_zaa :
    score_function demo_table 25 1 1 ['z','a','a'] = some (1/4) := by
  have hM : highest_total_frequency demo_table = 1 := by decide
  have hd : (ngrams ['z','a','a'] (ngram_length demo_table)).dedup =
      [['z'],['a']] := by decide
  have hcz : (ngrams ['z','a','a'] (ngram_length demo_table)).count ['z'] = 1 := by
    decide
  have hca : (ngrams ['z','a','a'] (ngram_length demo_table)).count ['a'] = 2 := by
    decide
  have hlen : (ngrams ['z','a','a'] (ngram_length demo_table)).length = 3 := by
    decide
  have hguard : ((ngrams ['z','a','a'] (ngram_length demo_table)).dedup.all
      (fun g => g ∈ demo_table.keys)) = true := by decide
  have hsum : ngram_score_sum demo_table 1 (highest_total_frequency demo_table)
      ['z','a','a'] = 1 := by
    unfold ngram_score_sum
    rw [hd, hM]
    simp only [List.map_cons, List.map_nil, List.sum_cons, List.sum_nil,
      hcz, hca, demo_val_z, demo_val_a]
    norm_num [Real.rpow_one]
  have hpen : length_penalty 25 1
      (ngrams ['z','a','a'] (ngram_length demo_table)).length = 0 := by
    unfold length_penalty
    rw [hlen]
    norm_num [Real.rpow_one]
  unfold score_function
  rw [if_pos hguard, hsum, hpen, hlen]
  norm_num

theorem demo_score_zaaa :
    score_function demo_table 25 1 1 ['z','a','a','a'] = some (1/5) := by
  have hM : highest_total_frequency demo_table = 1 := by decide
  have hd : (ngrams ['z','a','a','a'] (ngram_length demo_table)).dedup =
      [['z'],['a']] := by decide
  have hcz : (ngrams ['z','a','a','a'] (ngram_length demo_table)).count ['z']
      = 1 := by decide
  have hca : (ngrams ['z','a','a','a'] (ngram_length demo_table)).count ['a']
      = 3 := by decide
  have hlen : (ngrams ['z','a','a','a'] (ngram_length demo_table)).length = 4 := by
    decide
  have hguard : ((ngrams ['z','a','a','a'] (ngram_length demo_table)).dedup.all
      (fun g => g ∈ demo_table.keys)) = true := by decide
  have hsum : ngram_score_sum demo_table 1 (highest_total_frequency demo_table)
      ['z','a','a','a'] = 1 := by
    unfold ngram_score_sum
    rw [hd, hM]
    simp only [List.map_cons, List.map_nil, List.sum_cons, List.sum_nil,
      hcz, hca, demo_val_z, demo_val_a]
    norm_num [Real.rpow_one]
  have hpen : length_penalty 25 1
      (ngrams ['z','a','a','a'] (ngram_length demo_table)).length = 0 := by
    unfold length_penalty
    rw [hlen]
    norm_num [Real.rpow_one]
  unfold score_function
  rw [if_pos hguard, hsum, hpen, hlen]
  norm_num

/-- Counterexample to claim C8: under `demo_table` (scorer exponents 1,
threshold 25), the n-gram `"a"` attains the maximal in-string count of the
string `"zaa"` (count 2, no n-gram exceeds it), yet appending one more
repeat of it — giving `"zaaa"` — strictly DECREASES the score, from `1/4`
to `1/5`: the `1 + m` normalization outgrows the unchanged n-gram sum. -/
theorem C8_counterexample :
    ((['z','a','a','a'] : Str) = ['z','a','a'] ++ ['a']) ∧
    (ngrams ['z','a','a'] (ngram_length demo_table)).count ['a'] = 2 ∧
    ((ngrams ['z','a','a'] (ngram_length demo_table)).all
      (fun g => (ngrams ['z','a','a'] (ngram_length demo_table)).count g ≤ 2))
      = true ∧
    score_function demo_table 25 1 1 ['z','a','a'] = some (1/4) ∧
    score_function demo_table 25 1 1 ['z','a','a','a'] = some (1/5) ∧
    ((1 : ℝ)/5) < 1/4 := by
  exact ⟨rfl, by decide, by decide, demo_score_zaa, demo_score_zaaa,
    by norm_num⟩

/-- Claim C8 as amended: what is monotone under appending to the string is
the scorer's raw numerator `ngram_score_sum + length_penalty` (for
nonnegative idf values and exponents); the final score divides it by
`1 + m` and can decrease (see the counterexample). -/
theorem C8_amended_numerator_monotone (t : Table) (thr : ℕ) (lpe rpe : ℝ)
    (hlpe : 0 ≤ lpe) (hrpe : 0 ≤ rpe)
    (hidf : ∀ g : Str, 0 ≤ (t.val g).idf) (s u : Str) :
    ngram_score_sum t rpe (highest_total_frequency t) s
        + length_penalty thr lpe (ngrams s (ngram_length t)).length
      ≤ ngram_score_sum t rpe (highest_total_frequency t) (s ++ u)
        + length_penalty thr lpe (ngrams (s ++ u) (ngram_length t)).length := by
  obtain ⟨r, hr⟩ := ngrams_append s u (ngram_length t)
  set M : ℕ := highest_total_frequency t with hMdef
  set A : List Str := ngrams s (ngram_length t) with hA
  set B : List Str := ngrams (s ++ u) (ngram_length t) with hB
  have hcount : ∀ g : Str, A.count g ≤ B.count g := by
    intro g
    rw [hr, List.count_append]
    exact Nat.le_add_right _ _
  have hsub : A.toFinset ⊆ B.toFinset := by
    intro g hg
    rw [List.mem_toFinset] at hg ⊢
    rw [hr]
    exact List.mem_append_left r hg
  have htf : ∀ (l : List Str) (g : Str),
      (0 : ℝ) ≤ 1/2 + 1/2 * (l.count g : ℝ) / (M : ℝ) := by
    intro l g
    have : (0 : ℝ) ≤ 1/2 * (l.count g : ℝ) / (M : ℝ) := by positivity
    linarith
  have hterm_nonneg : ∀ (l : List Str) (g : Str), (0 : ℝ) ≤
      (t.val g).idf * ((l.count g : ℝ) ^ rpe)
        * (1/2 + 1/2 * (l.count g : ℝ) / (M : ℝ)) := by
    intro l g
    exact mul_nonneg (mul_nonneg (hidf g)
      (Real.rpow_nonneg (Nat.cast_nonneg _) rpe)) (htf l g)
  have hsum_le : ngram_score_sum t rpe M s ≤ ngram_score_sum t rpe M (s ++ u) := by
    unfold ngram_score_sum
    rw [dedup_map_sum_eq_finset_sum, dedup_map_sum_eq_finset_sum, ← hA, ← hB]
    calc A.toFinset.sum (fun g => (t.val g).idf * ((A.count g : ℝ) ^ rpe)
            * (1/2 + 1/2 * (A.count g : ℝ) / (M : ℝ)))
        ≤ A.toFinset.sum (fun g => (t.val g).idf * ((B.count g : ℝ) ^ rpe)
            * (1/2 + 1/2 * (B.count g : ℝ) / (M : ℝ))) := by
          refine Finset.sum_le_sum (fun g _ => ?_)
          have h1 : ((A.count g : ℝ) ^ rpe) ≤ ((B.count g : ℝ) ^ rpe) :=
            Real.rpow_le_rpow (Nat.cast_nonneg _)
              (Nat.cast_le.mpr (hcount g)) hrpe
          have h2 : 1/2 + 1/2 * (A.count g : ℝ) / (M : ℝ)
              ≤ 1/2 + 1/2 * (B.count g : ℝ) / (M : ℝ) := by
            have hdiv : 1/2 * (A.count g : ℝ) / (M : ℝ)
                ≤ 1/2 * (B.count g : ℝ) / (M : ℝ) := by
              refine div_le_div_of_nonneg_right ?_ (Nat.cast_nonneg _)
              have hc : ((A.count g : ℕ) : ℝ) ≤ ((B.count g : ℕ) : ℝ) :=
                Nat.cast_le.mpr (hcount g)
              linarith
            linarith
          exact mul_le_mul (mul_le_mul_of_nonneg_left h1 (hidf g)) h2
            (htf A g) (mul_nonneg (hidf g)
              (Real.rpow_nonneg (Nat.cast_nonneg _) rpe))
      _ ≤ B.toFinset.sum (fun g => (t.val g).idf * ((B.count g : ℝ) ^ rpe)
            * (1/2 + 1/2 * (B.count g : ℝ) / (M : ℝ))) :=
          Finset.sum_le_sum_of_subset_of_nonneg hsub
            (fun g _ _ => hterm_nonneg B g)
  have hpen_le : length_penalty thr lpe A.length
      ≤ length_penalty thr lpe B.length := by
    unfold length_penalty
    have hlen : A.length ≤ B.length := by
      rw [hr]
      simp
    exact Real.rpow_le_rpow (Nat.cast_nonneg _)
      (Nat.cast_le.mpr (Nat.sub_le_sub_right hlen thr)) hlpe
  exact add_le_add hsum_le hpen_le

/-- Witness for C8 as amended at `demo_table`, `s = "zaa"`, `u = "a"`. -/
theorem C8_amended_witness :
    ((0:ℝ) ≤ 1) ∧ (∀ g : Str, 0 ≤ (demo_table.val g).idf) ∧
    ngram_score_sum demo_table 1 (highest_total_frequency demo_table)
        ['z','a','a']
      + length_penalty 25 1 (ngrams ['z','a','a'] (ngram_length demo_table)).length
      ≤ ngram_score_sum demo_table 1 (highest_total_frequency demo_table)
          (['z','a','a'] ++ ['a'])
        + length_penalty 25 1
            (ngrams (['z','a','a'] ++ ['a']) (ngram_length demo_table)).length := by
  have hidf : ∀ g : Str, 0 ≤ (demo_table.val g).idf := by
    intro g
    by_cases hg : g = ['z']
    · simp [demo_table, hg]
    · simp [demo_table, hg]
  exact ⟨by norm_num, hidf,
    C8_amended_numerator_monotone demo_table 25 1 1 (by norm_num) (by norm_num)
      hidf ['z','a','a'] ['a']⟩

end Nostril
